import Mathlib

set_option maxHeartbeats 1000000

/-!
Verification model of the flow-controlled outbound write queue of
cpp-libp2p (include/libp2p/basic/write_queue.hpp) and of the noise
ChaChaPoly cipher adaptor (src/security/noise/crypto/noise_ccp1305.cpp).

The write queue header declares the class layout (struct Data with the
three delivery counters, fields size_limit_, active_index_,
total_unsent_size_, queue_) and the five operations enqueue, dequeue,
ack, broadcast, clear.  The translation unit with the operation bodies
is not among the available sources, so the bodies below are modelled
from the specification text; the data layout follows the header.
Buffers are byte lists, callbacks are opaque identifiers.
-/

namespace Libp2p

/-- One queued write item, following struct WriteQueue::Data of the
header: the borrowed byte buffer, the three delivery counters
acknowledged / unacknowledged / unsent, the partial-completion flag
`some` and the completion callback, modelled as an identifier. -/
structure Data where
  data : List Nat
  acknowledged : Nat
  unacknowledged : Nat
  unsent : Nat
  some : Bool
  cb : Nat
deriving DecidableEq, Repr

/-- The counter partition property of one item: the three counters sum
to the byte length of the buffer. -/
def partitionOk (d : Data) : Prop :=
  d.acknowledged + d.unacknowledged + d.unsent = d.data.length

instance (d : Data) : Decidable (partitionOk d) := by
  unfold partitionOk
  infer_instance

/-- Default capacity limit from the header: 64 MiB. -/
def kDefaultSizeLimit : Nat := 64 * 1024 * 1024

/-- The write queue state, following the header fields.  The field
active_index_ of the header is kept equal to the position of the first
item with unsent bytes, so it is represented as the derived function
`active_index_` below rather than duplicated state. -/
structure WriteQueue where
  size_limit_ : Nat
  total_unsent_size_ : Nat
  queue_ : List Data
deriving DecidableEq, Repr

namespace WriteQueue

/-- A fresh queue with the given capacity limit. -/
def init (limit : Nat) : WriteQueue := ⟨limit, 0, []⟩

/-- Sum of the unsent counters of a list of items. -/
def total_unsent (l : List Data) : Nat := (l.map Data.unsent).sum

/-- Sum of the unacknowledged counters of a list of items. -/
def total_unacknowledged (l : List Data) : Nat :=
  (l.map Data.unacknowledged).sum

/-- Sum of the acknowledged counters of a list of items. -/
def total_acknowledged (l : List Data) : Nat :=
  (l.map Data.acknowledged).sum

/-- Modelled from the spec: body of WriteQueue::enqueue (the
implementing translation unit is missing).  If the prospective backlog
total_unsent + len(buffer) exceeds the capacity limit, reject: return
false and keep the state untouched.  Otherwise append an item with
unsent = len(buffer), acknowledged = unacknowledged = 0, add the length
to total_unsent and return true. -/
def enqueue (q : WriteQueue) (d : List Nat) (sm : Bool) (c : Nat) :
    Bool × WriteQueue :=
  if q.size_limit_ < q.total_unsent_size_ + d.length then
    (false, q)
  else
    (true,
      ⟨q.size_limit_, q.total_unsent_size_ + d.length,
        q.queue_ ++ [⟨d, 0, 0, d.length, sm, c⟩]⟩)

/-- Derived value of the header field active_index_: the position of
the first item still holding unsent bytes, or the length of the queue
when no item has unsent bytes. -/
def active_index_ (q : WriteQueue) : Nat :=
  q.queue_.findIdx fun d => decide (0 < d.unsent)

/-- The item under the active cursor: the first item with unsent bytes,
if any. -/
def activeItem (q : WriteQueue) : Option Data :=
  q.queue_.find? fun d => decide (0 < d.unsent)

/-- Modelled from the spec: the dequeue walk over the item list (the
implementing translation unit is missing).  Skip fully dequeued items,
then take n = min(window, unsent) bytes from the unsent region of the
first item with unsent bytes, moving n from its unsent counter to its
unacknowledged counter.  Returns ((chunk, partial flag, remaining
window), updated items). -/
def dequeueList (w : Nat) : List Data → (List Nat × Bool × Nat) × List Data
  | [] => (([], false, w), [])
  | d :: rest =>
    if d.unsent = 0 then
      let r := dequeueList w rest
      (r.1, d :: r.2)
    else
      let n := min w d.unsent
      let chunk := (d.data.drop (d.data.length - d.unsent)).take n
      ((chunk, d.some, w - n),
        ⟨d.data, d.acknowledged, d.unacknowledged + n, d.unsent - n,
          d.some, d.cb⟩ :: rest)

/-- Modelled from the spec: body of WriteQueue::dequeue.  Drains up to
window_size bytes at the active cursor and subtracts the drained byte
count from total_unsent. -/
def dequeue (q : WriteQueue) (w : Nat) :
    (List Nat × Bool × Nat) × WriteQueue :=
  let r := dequeueList w q.queue_
  (r.1, ⟨q.size_limit_, q.total_unsent_size_ - (w - r.1.2.2), r.2⟩)

/-- Modelled from the spec: the acknowledgment walk (the implementing
translation unit is missing).  Walk items from the front.  A front item
already fully acknowledged (in particular a zero-length marker) is
retired, firing its callback unless it fired earlier (a partial item
fires early, at its first partially acknowledged byte).  Otherwise move
min(remaining, unacknowledged) bytes from unacknowledged to
acknowledged; fire the callback on the first partial confirmation when
the `some` flag is set, or on full acknowledgment when it is not; retire
the item when it becomes fully acknowledged.  Returns (remaining items,
retired items in retirement order, fired callbacks in firing order). -/
def ackWalk : List Data → Nat → List Data × List Data × List Nat
  | [], _ => ([], [], [])
  | d :: rest, s =>
    if d.acknowledged = d.data.length then
      let r := ackWalk rest s
      (r.1, d :: r.2.1,
        (if d.some && decide (0 < d.acknowledged) then [] else [d.cb]) ++ r.2.2)
    else
      let n := min s d.unacknowledged
      if n = 0 then (d :: rest, [], [])
      else if d.acknowledged + n = d.data.length then
        let r := ackWalk rest (s - n)
        (r.1,
          ⟨d.data, d.acknowledged + n, d.unacknowledged - n, d.unsent,
            d.some, d.cb⟩ :: r.2.1,
          (if d.some && decide (0 < d.acknowledged) then [] else [d.cb]) ++ r.2.2)
      else
        (⟨d.data, d.acknowledged + n, d.unacknowledged - n, d.unsent,
            d.some, d.cb⟩ :: rest, [],
          if d.some && decide (d.acknowledged = 0) then [d.cb] else [])

/-- Modelled from the spec: body of WriteQueue::ack.  The size is a
delta of newly confirmed bytes.  When it exceeds the total outstanding
unacknowledged bytes the call is rejected whole: return false, fire
nothing, mutate nothing.  Otherwise run the acknowledgment walk.
Returns ((accepted, fired callbacks), updated queue). -/
def ack (q : WriteQueue) (s : Nat) : (Bool × List Nat) × WriteQueue :=
  if total_unacknowledged q.queue_ < s then ((false, []), q)
  else
    let r := ackWalk q.queue_ s
    ((true, r.2.2), ⟨q.size_limit_, q.total_unsent_size_, r.1⟩)

/-- Modelled from the spec: body of WriteQueue::clear.  Discard all
items, reset total_unsent to zero, fire nothing. -/
def clear (q : WriteQueue) : WriteQueue := ⟨q.size_limit_, 0, []⟩

/-- Modelled from the spec: the broadcast loop (the implementing
translation unit is missing).  Iteration is driven by an index with the
queue bounds revalidated on every step, so that a reentrant clear from
inside fn is observed.  fn receives the callback of the item under the
index and answers (continue?, does fn reentrantly clear the queue?).
The fuel argument is an upper bound on the remaining steps; the queue
never grows during broadcast, so the initial queue length suffices.
Returns (final state, callbacks handed to fn in order). -/
def broadcastLoop (fn : Nat → Bool × Bool) :
    Nat → Nat → WriteQueue → WriteQueue × List Nat
  | 0, _, q => (q, [])
  | fuel + 1, i, q =>
    match q.queue_[i]? with
    | none => (q, [])
    | some d =>
      let r := fn d.cb
      let q1 := if r.2 then clear q else q
      if r.1 then
        let t := broadcastLoop fn fuel (i + 1) q1
        (t.1, d.cb :: t.2)
      else (q1, [d.cb])

/-- Modelled from the spec: body of WriteQueue::broadcast. -/
def broadcast (q : WriteQueue) (fn : Nat → Bool × Bool) :
    WriteQueue × List Nat :=
  broadcastLoop fn q.queue_.length 0 q

/-- The callback sequence the spec prescribes for broadcast: callbacks
front to back, stopping right after the first one for which fn answers
stop, or after a step in which fn reentrantly clears the queue. -/
def broadcastCalls (fn : Nat → Bool × Bool) : List Nat → List Nat
  | [] => []
  | c :: rest =>
    c :: (if (fn c).1 && !(fn c).2 then broadcastCalls fn rest else [])

/-- One driver operation on the queue, for trace reasoning. -/
inductive Op where
  | enq : List Nat → Bool → Nat → Op
  | deq : Nat → Op
  | ackOp : Nat → Op
  | bcast : (Nat → Bool × Bool) → Op
  | clearOp : Op

/-- One step of the driver: apply the operation, return the new state
and the completion callbacks the queue fired during the step.  Only ack
fires completion callbacks; broadcast hands callbacks to fn without
consuming them, and clear fires nothing. -/
def step (q : WriteQueue) : Op → WriteQueue × List Nat
  | Op.enq d sm c => ((enqueue q d sm c).2, [])
  | Op.deq w => ((dequeue q w).2, [])
  | Op.ackOp s =>
    let r := ack q s
    (r.2, r.1.2)
  | Op.bcast fn => ((broadcast q fn).1, [])
  | Op.clearOp => (clear q, [])

/-- Run a sequence of operations, collecting every completion callback
fired on the way. -/
def run (q : WriteQueue) : List Op → WriteQueue × List Nat
  | [] => (q, [])
  | op :: rest =>
    let r := step q op
    let t := run r.1 rest
    (t.1, r.2 ++ t.2)

/-- Number of enqueue operations in a trace that carry the callback c. -/
def enqCount (c : Nat) : List Op → Nat
  | [] => 0
  | Op.enq _ _ c2 :: rest => (if c2 = c then 1 else 0) + enqCount c rest
  | _ :: rest => enqCount c rest

/-- Whether the completion callback of an item may still fire: an item
with the partial flag fires at its first partially acknowledged byte,
so it can only fire while acknowledged is still zero; an item without
the flag fires at retirement. -/
def mayFire (d : Data) : Bool :=
  if d.some then decide (d.acknowledged = 0) else true

/-- Number of items in the list whose callback is c and may still
fire. -/
def pendingCount (c : Nat) (l : List Data) : Nat :=
  l.countP fun d => d.cb == c && mayFire d

/-- The structural invariant of reachable queues: every item satisfies
the counter partition, and dequeue order is respected: whenever a later
item already has dequeued bytes (acknowledged or unacknowledged), every
earlier item is fully dequeued (unsent zero). -/
def queueInv (l : List Data) : Prop :=
  (∀ d ∈ l, partitionOk d) ∧
  l.Pairwise fun a b => 0 < b.acknowledged + b.unacknowledged → a.unsent = 0

instance (l : List Data) : Decidable (queueInv l) := by
  unfold queueInv
  infer_instance

end WriteQueue

/-- Abstract state of crypto::chachapoly::ChaCha20Poly1305Impl, the
cipher object held by CCP1305Impl.  Its three operations are opaque
functions of their explicit arguments: nonce conversion, encryption of
(nonce bytes, plaintext, aad) and decryption of (nonce bytes,
ciphertext, aad); results are in an error monad, matching
outcome::result. -/
structure ChaChaPoly where
  uint64toNonce : Nat → List Nat
  enc : List Nat → List Nat → List Nat → Except Nat (List Nat)
  dec : List Nat → List Nat → List Nat → Except Nat (List Nat)

/-- The noise adaptor from noise_ccp1305.cpp: it owns a ChaChaPoly
cipher object ccp_. -/
structure CCP1305Impl where
  ccp : ChaChaPoly

/-- CCP1305Impl::encrypt from noise_ccp1305.cpp: the precompiled_out
span is passed to unused() and discarded, the nonce is converted with
uint64toNonce, and the cipher encrypt runs on (nonce, plaintext, aad). -/
def CCP1305Impl.encrypt (self : CCP1305Impl) (precompiled_out : List Nat)
    (nonce : Nat) (plaintext aad : List Nat) : Except Nat (List Nat) :=
  let n := self.ccp.uint64toNonce nonce
  self.ccp.enc n plaintext aad

/-- CCP1305Impl::decrypt from noise_ccp1305.cpp: the precompiled_out
span is passed to unused() and discarded, the nonce is converted with
uint64toNonce, and the cipher decrypt runs on (nonce, ciphertext,
aad). -/
def CCP1305Impl.decrypt (self : CCP1305Impl) (precompiled_out : List Nat)
    (nonce : Nat) (ciphertext aad : List Nat) : Except Nat (List Nat) :=
  let n := self.ccp.uint64toNonce nonce
  self.ccp.dec n ciphertext aad

/-- Claim C10: for every key (cipher state), nonce, plaintext or
ciphertext, and aad, the results of CCP1305Impl::encrypt and
CCP1305Impl::decrypt are independent of the precompiled_out argument:
two calls differing only in precompiled_out return the same result. -/
theorem claim_C10_precompiled_out_ignored (impl : CCP1305Impl)
    (po1 po2 : List Nat) (nonce : Nat) (pt ct aad : List Nat) :
    impl.encrypt po1 nonce pt aad = impl.encrypt po2 nonce pt aad ∧
    impl.decrypt po1 nonce ct aad = impl.decrypt po2 nonce ct aad :=
  ⟨rfl, rfl⟩

namespace WriteQueue

/-- Claim C2: enqueue rejects exactly when the prospective backlog
exceeds the capacity limit, leaving the state untouched and retaining
nothing; otherwise it appends an item with unsent = len(buffer) and
zeroed acknowledged and unacknowledged counters, adds len(buffer) to
total_unsent and returns true. -/
theorem claim_C2_enqueue_backpressure (q : WriteQueue) (d : List Nat)
    (sm : Bool) (c : Nat) :
    if q.total_unsent_size_ + d.length > q.size_limit_ then
      (enqueue q d sm c).1 = false ∧ (enqueue q d sm c).2 = q
    else
      (enqueue q d sm c).1 = true ∧
      (enqueue q d sm c).2.queue_ = q.queue_ ++ [⟨d, 0, 0, d.length, sm, c⟩] ∧
      (enqueue q d sm c).2.total_unsent_size_ =
        q.total_unsent_size_ + d.length ∧
      (enqueue q d sm c).2.size_limit_ = q.size_limit_ := by
  by_cases h : q.size_limit_ < q.total_unsent_size_ + d.length <;>
    simp [enqueue, h, gt_iff_lt]

/-- Claim C8: clear discards all items, resets total_unsent to zero and
the active cursor to empty, fires no callback, and a following dequeue
returns an empty chunk with the window unchanged. -/
theorem claim_C8_clear_discards_all (q : WriteQueue) (w : Nat) :
    clear q = ⟨q.size_limit_, 0, []⟩ ∧
    step q Op.clearOp = (clear q, []) ∧
    activeItem (clear q) = none ∧
    dequeue (clear q) w = (([], false, w), clear q) := by
  refine ⟨rfl, rfl, rfl, ?_⟩
  simp [dequeue, dequeueList, clear]

/-- Characterization of the dequeue walk: when no item has unsent
bytes it is the identity returning an empty chunk; otherwise it
splits the list at the first item with unsent bytes and moves
min(window, unsent) bytes of that item from unsent to unacknowledged,
emitting exactly that slice of the buffer. -/
theorem dequeueList_eq (w : Nat) (l : List Data) :
    match l.find? (fun d => decide (0 < d.unsent)) with
    | none => dequeueList w l = (([], false, w), l)
    | some d => ∃ l₁ l₂,
        l = l₁ ++ d :: l₂ ∧ (∀ e ∈ l₁, e.unsent = 0) ∧ 0 < d.unsent ∧
        dequeueList w l =
          (((d.data.drop (d.data.length - d.unsent)).take (min w d.unsent),
              d.some, w - min w d.unsent),
            l₁ ++ ⟨d.data, d.acknowledged, d.unacknowledged + min w d.unsent,
              d.unsent - min w d.unsent, d.some, d.cb⟩ :: l₂) := by
  induction l with
  | nil => simp [dequeueList]
  | cons d rest ih =>
    by_cases hz : d.unsent = 0
    · rw [List.find?_cons, show (decide (0 < d.unsent)) = false by simp [hz]]
      revert ih
      cases hfind : rest.find? (fun e => decide (0 < e.unsent)) with
      | none =>
        intro ih
        simp [dequeueList, hz, ih]
      | some a =>
        intro ih
        obtain ⟨l₁, l₂, hsplit, hzs, hpos, heq⟩ := ih
        refine ⟨d :: l₁, l₂, by simp [hsplit], ?_, hpos, ?_⟩
        · intro e he
          rcases List.mem_cons.mp he with h | h
          · exact h ▸ hz
          · exact hzs e h
        · simp [dequeueList, hz, heq]
    · rw [List.find?_cons,
        show (decide (0 < d.unsent)) = true by simp [Nat.pos_of_ne_zero hz]]
      exact ⟨[], rest, rfl, by simp, Nat.pos_of_ne_zero hz,
        by simp [dequeueList, hz]⟩

/-- Claim C3: dequeue returns exactly min(window, unsent of the active
item) bytes taken from the unsent region of the active item, moves
that many bytes from its unsent counter to its unacknowledged counter,
reports its partial flag, and returns the window minus the bytes
returned; when no item has unsent bytes it returns an empty chunk and
the window unchanged. -/
theorem claim_C3_dequeue_min_window (q : WriteQueue) (w : Nat)
    (hinv : ∀ d ∈ q.queue_, partitionOk d) :
    match activeItem q with
    | none => dequeue q w = (([], false, w), q)
    | some d =>
        (dequeue q w).1.1 =
          (d.data.drop (d.data.length - d.unsent)).take (min w d.unsent) ∧
        (dequeue q w).1.1.length = min w d.unsent ∧
        (dequeue q w).1.2.1 = d.some ∧
        (dequeue q w).1.2.2 = w - min w d.unsent ∧
        (∃ l₁ l₂,
          q.queue_ = l₁ ++ d :: l₂ ∧ (∀ e ∈ l₁, e.unsent = 0) ∧
          0 < d.unsent ∧
          (dequeue q w).2.queue_ =
            l₁ ++ ⟨d.data, d.acknowledged, d.unacknowledged + min w d.unsent,
              d.unsent - min w d.unsent, d.some, d.cb⟩ :: l₂) ∧
        (dequeue q w).2.total_unsent_size_ =
          q.total_unsent_size_ - min w d.unsent ∧
        (dequeue q w).2.size_limit_ = q.size_limit_ := by
  have h := dequeueList_eq w q.queue_
  revert h
  cases hfind : q.queue_.find? (fun e => decide (0 < e.unsent)) with
  | none =>
    intro h
    have : activeItem q = none := by simp [activeItem, hfind]
    rw [this]
    simp only [dequeue, h]
    cases q with
    | mk lim tot l => simp
  | some d =>
    intro h
    have ha : activeItem q = some d := by simp [activeItem, hfind]
    rw [ha]
    obtain ⟨l₁, l₂, hsplit, hzs, hpos, heq⟩ := h
    have hd : d ∈ q.queue_ := by
      rw [hsplit]; exact List.mem_append_right _ (List.mem_cons_self _ _)
    have hpart : partitionOk d := hinv d hd
    have hle : d.unsent ≤ d.data.length := by
      unfold partitionOk at hpart; omega
    have hlen :
        ((d.data.drop (d.data.length - d.unsent)).take (min w d.unsent)).length
          = min w d.unsent := by
      rw [List.length_take, List.length_drop]
      omega
    refine ⟨?_, ?_, ?_, ?_, ⟨l₁, l₂, hsplit, hzs, hpos, ?_⟩, ?_, ?_⟩
    · simp [dequeue, heq]
    · simp [dequeue, heq, hlen]
    · simp [dequeue, heq]
    · simp [dequeue, heq]
    · simp [dequeue, heq]
    · simp only [dequeue, heq]
      have hm : min w d.unsent ≤ w := Nat.min_le_left _ _
      have he2 : w - (w - min w d.unsent) = min w d.unsent := by omega
      rw [he2]
    · simp [dequeue, heq]

/-- Shape of the acknowledgment walk: the retired items are exactly a
front prefix of the list (same callbacks, in order), each retired item
is fully acknowledged, the remaining items are the corresponding
suffix with at most its first element modified (same buffer, callback,
flag and unsent counter, strictly larger acknowledged counter, same
acknowledged + unacknowledged sum, still not fully acknowledged), and
every fired callback belongs to a retired item or to the first
remaining item, which is not fully acknowledged. -/
theorem ackWalk_shape (l : List Data) (s : Nat) :
    ((ackWalk l s).2.1).map Data.cb =
      (l.take (ackWalk l s).2.1.length).map Data.cb ∧
    (ackWalk l s).2.1.length + (ackWalk l s).1.length = l.length ∧
    (∀ d ∈ (ackWalk l s).2.1, d.acknowledged = d.data.length) ∧
    ((ackWalk l s).1 = l.drop (ackWalk l s).2.1.length ∨
      ∃ d d2 t, l.drop (ackWalk l s).2.1.length = d :: t ∧
        (ackWalk l s).1 = d2 :: t ∧
        d2.data = d.data ∧ d2.cb = d.cb ∧ d2.some = d.some ∧
        d2.unsent = d.unsent ∧
        d2.acknowledged + d2.unacknowledged =
          d.acknowledged + d.unacknowledged ∧
        d.acknowledged < d2.acknowledged ∧
        d2.acknowledged ≠ d.data.length) ∧
    (∀ c ∈ (ackWalk l s).2.2,
      c ∈ ((ackWalk l s).2.1).map Data.cb ∨
      ∃ d t, l.drop (ackWalk l s).2.1.length = d :: t ∧ c = d.cb ∧
        d.acknowledged ≠ d.data.length) := by
  induction l generalizing s with
  | nil => simp [ackWalk]
  | cons d rest ih =>
    by_cases h1 : d.acknowledged = d.data.length
    · rcases hw : ackWalk rest s with ⟨rem, poppedFired⟩
      rcases poppedFired with ⟨popped, fired⟩
      have IH := ih s
      rw [hw] at IH
      obtain ⟨ihcb, ihlen, ihack, ihdrop, ihfire⟩ := IH
      simp only [ackWalk, if_pos h1, hw]
      dsimp only at ihcb ihlen ihack ihdrop ihfire ⊢
      refine ⟨?_, ?_, ?_, ?_, ?_⟩
      · simp only [List.map_cons, List.length_cons, List.take_succ_cons,
          ihcb]
      · simp only [List.length_cons]
        omega
      · intro e he
        rcases List.mem_cons.mp he with h | h
        · exact h ▸ h1
        · exact ihack e h
      · rcases ihdrop with hL | ⟨a, a2, t, hsplit, hrem, hf⟩
        · left
          simpa only [List.length_cons, List.drop_succ_cons] using hL
        · right
          exact ⟨a, a2, t,
            by simpa only [List.length_cons, List.drop_succ_cons] using
              hsplit, hrem, hf⟩
      · intro c hc
        rcases List.mem_append.mp hc with h | h
        · by_cases hf : d.some && decide (0 < d.acknowledged)
          · rw [if_pos hf] at h
            exact absurd h (List.not_mem_nil c)
          · rw [if_neg hf] at h
            left
            have : c = d.cb := by simpa using h
            simp [this]
        · rcases ihfire c h with hL | ⟨a, t, hdrop, hcb, hne⟩
          · left
            simp only [List.map_cons, List.mem_cons]
            exact Or.inr hL
          · right
            exact ⟨a, t,
              by simpa only [List.length_cons, List.drop_succ_cons] using
                hdrop, hcb, hne⟩
    · by_cases hn : min s d.unacknowledged = 0
      · simp only [ackWalk, if_neg h1, if_pos hn]
        refine ⟨by simp, by simp, by simp, Or.inl (by simp), by simp⟩
      · by_cases h2 : d.acknowledged + min s d.unacknowledged = d.data.length
        · rcases hw : ackWalk rest (s - min s d.unacknowledged) with
            ⟨rem, poppedFired⟩
          rcases poppedFired with ⟨popped, fired⟩
          have IH := ih (s - min s d.unacknowledged)
          rw [hw] at IH
          obtain ⟨ihcb, ihlen, ihack, ihdrop, ihfire⟩ := IH
          simp only [ackWalk, if_neg h1, if_neg hn, if_pos h2, hw]
          dsimp only at ihcb ihlen ihack ihdrop ihfire ⊢
          refine ⟨?_, ?_, ?_, ?_, ?_⟩
          · simp only [List.map_cons, List.length_cons, List.take_succ_cons,
              ihcb]
          · simp only [List.length_cons]
            omega
          · intro e he
            rcases List.mem_cons.mp he with h | h
            · rw [h]
              exact h2
            · exact ihack e h
          · rcases ihdrop with hL | ⟨a, a2, t, hsplit, hrem, hf⟩
            · left
              simpa only [List.length_cons, List.drop_succ_cons] using hL
            · right
              exact ⟨a, a2, t,
                by simpa only [List.length_cons, List.drop_succ_cons] using
                  hsplit, hrem, hf⟩
          · intro c hc
            rcases List.mem_append.mp hc with h | h
            · by_cases hf : d.some && decide (0 < d.acknowledged)
              · rw [if_pos hf] at h
                exact absurd h (List.not_mem_nil c)
              · rw [if_neg hf] at h
                left
                have : c = d.cb := by simpa using h
                simp [this]
            · rcases ihfire c h with hL | ⟨a, t, hdrop, hcb, hne⟩
              · left
                simp only [List.map_cons, List.mem_cons]
                exact Or.inr hL
              · right
                exact ⟨a, t,
                  by simpa only [List.length_cons, List.drop_succ_cons] using
                    hdrop, hcb, hne⟩
        · simp only [ackWalk, if_neg h1, if_neg hn, if_neg h2]
          have hnu : min s d.unacknowledged ≤ d.unacknowledged :=
            Nat.min_le_right _ _
          refine ⟨by simp, by simp, by simp, ?_, ?_⟩
          · right
            refine ⟨d, ⟨d.data, d.acknowledged + min s d.unacknowledged,
              d.unacknowledged - min s d.unacknowledged, d.unsent, d.some,
              d.cb⟩, rest, by simp, by simp, rfl, rfl, rfl, rfl, ?_, ?_, h2⟩
            · show d.acknowledged + min s d.unacknowledged +
                (d.unacknowledged - min s d.unacknowledged) =
                d.acknowledged + d.unacknowledged
              omega
            · show d.acknowledged < d.acknowledged + min s d.unacknowledged
              omega
          · intro c hc
            by_cases hf : d.some && decide (d.acknowledged = 0)
            · rw [if_pos hf] at hc
              have : c = d.cb := by simpa using hc
              exact Or.inr ⟨d, rest, by simp, this, h1⟩
            · rw [if_neg hf] at hc
              exact absurd hc (List.not_mem_nil c)

theorem total_unack_cons (d : Data) (rest : List Data) :
    total_unacknowledged (d :: rest) =
      d.unacknowledged + total_unacknowledged rest := by
  simp [total_unacknowledged]

theorem total_ack_cons (d : Data) (rest : List Data) :
    total_acknowledged (d :: rest) =
      d.acknowledged + total_acknowledged rest := by
  simp [total_acknowledged]

theorem queueInv_cons {d : Data} {rest : List Data}
    (h : queueInv (d :: rest)) :
    partitionOk d ∧ queueInv rest ∧
    (∀ b ∈ rest, 0 < b.acknowledged + b.unacknowledged → d.unsent = 0) := by
  obtain ⟨hp, hpw⟩ := h
  rw [List.pairwise_cons] at hpw
  exact ⟨hp d (List.mem_cons_self d rest),
    ⟨fun e he => hp e (List.mem_cons_of_mem d he), hpw.2⟩, hpw.1⟩

theorem total_unack_eq_zero {l : List Data}
    (h : ∀ b ∈ l, b.unacknowledged = 0) : total_unacknowledged l = 0 := by
  unfold total_unacknowledged
  apply List.sum_eq_zero
  intro x hx
  rcases List.mem_map.mp hx with ⟨b, hb, rfl⟩
  exact h b hb

/-- Conservation through the acknowledgment walk on an invariant
state: when the delta is covered by the outstanding unacknowledged
bytes, exactly delta bytes move from unacknowledged to acknowledged
(acknowledged bytes of retired items included). -/
theorem ackWalk_conservation (l : List Data) (s : Nat)
    (hinv : queueInv l) (hs : s ≤ total_unacknowledged l) :
    total_unacknowledged (ackWalk l s).1 = total_unacknowledged l - s ∧
    total_acknowledged (ackWalk l s).1 +
      total_acknowledged (ackWalk l s).2.1 =
      total_acknowledged l + s := by
  induction l generalizing s with
  | nil =>
    simp [total_unacknowledged, total_acknowledged] at hs ⊢
    simp [ackWalk, hs]
  | cons d rest ih =>
    obtain ⟨hpd, hinvr, hord⟩ := queueInv_cons hinv
    unfold partitionOk at hpd
    by_cases h1 : d.acknowledged = d.data.length
    · have hu0 : d.unacknowledged = 0 := by omega
      rcases hw : ackWalk rest s with ⟨rem, poppedFired⟩
      rcases poppedFired with ⟨popped, fired⟩
      have hs2 : s ≤ total_unacknowledged rest := by
        rw [total_unack_cons, hu0] at hs
        omega
      have IH := ih s hinvr hs2
      rw [hw] at IH
      simp only [ackWalk, if_pos h1, hw]
      dsimp only at IH ⊢
      rw [total_unack_cons, total_ack_cons, total_ack_cons, hu0]
      omega
    · by_cases hn : min s d.unacknowledged = 0
      · rcases Nat.eq_zero_or_pos s with hs0 | hsp
        · subst hs0
          simp only [ackWalk, if_neg h1, if_pos hn]
          simp [total_unacknowledged, total_acknowledged]
        · have hu0 : d.unacknowledged = 0 := by omega
          have hun : 0 < d.unsent := by omega
          have hrest0 : total_unacknowledged rest = 0 := by
            apply total_unack_eq_zero
            intro b hb
            by_contra hbne
            have := hord b hb (by omega)
            omega
          rw [total_unack_cons, hu0, hrest0] at hs
          omega
      · by_cases h2 : d.acknowledged + min s d.unacknowledged = d.data.length
        · have hmle : min s d.unacknowledged ≤ s := Nat.min_le_left _ _
          have hmlu : min s d.unacknowledged ≤ d.unacknowledged :=
            Nat.min_le_right _ _
          have hueq : d.unacknowledged = min s d.unacknowledged ∧
              d.unsent = 0 := by omega
          rcases hw : ackWalk rest (s - min s d.unacknowledged) with
            ⟨rem, poppedFired⟩
          rcases poppedFired with ⟨popped, fired⟩
          have hs2 : s - min s d.unacknowledged ≤
              total_unacknowledged rest := by
            rw [total_unack_cons] at hs
            omega
          have IH := ih (s - min s d.unacknowledged) hinvr hs2
          rw [hw] at IH
          simp only [ackWalk, if_neg h1, if_neg hn, if_pos h2, hw]
          dsimp only at IH ⊢
          rw [total_unack_cons, total_ack_cons, total_ack_cons]
          dsimp only
          omega
        · have hmle : min s d.unacknowledged ≤ s := Nat.min_le_left _ _
          have hmlu : min s d.unacknowledged ≤ d.unacknowledged :=
            Nat.min_le_right _ _
          have hneq : min s d.unacknowledged = s := by
            rcases Nat.le_total s d.unacknowledged with hle | hle
            · exact Nat.min_eq_left hle
            · have hmin : min s d.unacknowledged = d.unacknowledged :=
                Nat.min_eq_right hle
              by_cases huse : d.unacknowledged = s
              · rw [hmin, huse]
              · have hun : 0 < d.unsent := by
                  rw [hmin] at h2
                  omega
                have hrest0 : total_unacknowledged rest = 0 := by
                  apply total_unack_eq_zero
                  intro b hb
                  by_contra hbne
                  have := hord b hb (by omega)
                  omega
                rw [total_unack_cons, hrest0] at hs
                omega
          simp only [ackWalk, if_neg h1, if_neg hn, if_neg h2]
          rw [total_unack_cons] at hs ⊢
          simp only [total_unack_cons, total_ack_cons,
            total_acknowledged, total_unacknowledged, List.map_nil,
            List.sum_nil, List.map_cons, List.sum_cons]
          omega

/-- Claim C7: acknowledgment retires items only from the front of the
FIFO sequence: the retired items of an ack walk are a front prefix of
the queue, each retired only once fully acknowledged; the remaining
items are the untouched suffix with at most its first element given
more acknowledged bytes, so acknowledgment never retires or skips
ahead over an earlier item that is not yet fully acknowledged; and ack
either leaves the queue unchanged (rejection) or replaces it by the
walk result. -/
theorem claim_C7_fifo_retirement (q : WriteQueue) (s : Nat) :
    (∀ d ∈ (ackWalk q.queue_ s).2.1, d.acknowledged = d.data.length) ∧
    ((ackWalk q.queue_ s).2.1).map Data.cb =
      (q.queue_.take (ackWalk q.queue_ s).2.1.length).map Data.cb ∧
    ((ackWalk q.queue_ s).1 =
        q.queue_.drop (ackWalk q.queue_ s).2.1.length ∨
      ∃ d d2 t, q.queue_.drop (ackWalk q.queue_ s).2.1.length = d :: t ∧
        (ackWalk q.queue_ s).1 = d2 :: t ∧
        d2.data = d.data ∧ d2.cb = d.cb ∧ d2.some = d.some ∧
        d2.unsent = d.unsent ∧
        d2.acknowledged + d2.unacknowledged =
          d.acknowledged + d.unacknowledged ∧
        d.acknowledged < d2.acknowledged ∧
        d2.acknowledged ≠ d.data.length) ∧
    ((ack q s).2.queue_ = q.queue_ ∨
      (ack q s).2.queue_ = (ackWalk q.queue_ s).1) := by
  obtain ⟨hcb, _, hack, hdrop, _⟩ := ackWalk_shape q.queue_ s
  refine ⟨hack, hcb, hdrop, ?_⟩
  by_cases h : total_unacknowledged q.queue_ < s
  · left
    simp [ack, h]
  · right
    simp [ack, h]

/-- Claim C4: an ack whose size exceeds the total outstanding
unacknowledged bytes is rejected whole: it returns false, fires no
callback and leaves the state exactly as before; otherwise it returns
true and moves exactly size bytes from unacknowledged to acknowledged
(acknowledged bytes of retired items included), walking from the
front, without touching total_unsent or the capacity limit. -/
theorem claim_C4_ack_rejection (q : WriteQueue) (s : Nat)
    (hinv : queueInv q.queue_) :
    if total_unacknowledged q.queue_ < s then
      ack q s = ((false, []), q)
    else
      (ack q s).1.1 = true ∧
      total_unacknowledged (ack q s).2.queue_ =
        total_unacknowledged q.queue_ - s ∧
      total_acknowledged (ack q s).2.queue_ +
        total_acknowledged (ackWalk q.queue_ s).2.1 =
        total_acknowledged q.queue_ + s ∧
      (ack q s).2.total_unsent_size_ = q.total_unsent_size_ ∧
      (ack q s).2.size_limit_ = q.size_limit_ := by
  by_cases h : total_unacknowledged q.queue_ < s
  · rw [if_pos h]
    simp [ack, h]
  · rw [if_neg h]
    have hc := ackWalk_conservation q.queue_ s hinv (Nat.le_of_not_lt h)
    refine ⟨by simp [ack, h], ?_, ?_, by simp [ack, h], by simp [ack, h]⟩
    · simpa [ack, h] using hc.1
    · simpa [ack, h] using hc.2

theorem dequeueList_partition (w : Nat) (l : List Data)
    (h : ∀ d ∈ l, partitionOk d) :
    ∀ d ∈ (dequeueList w l).2, partitionOk d := by
  induction l with
  | nil => simp [dequeueList]
  | cons d rest ih =>
    have hpd := h d (List.mem_cons_self d rest)
    have hrest : ∀ e ∈ rest, partitionOk e := fun e he =>
      h e (List.mem_cons_of_mem _ he)
    by_cases hz : d.unsent = 0
    · simp only [dequeueList, if_pos hz]
      intro e he
      rcases List.mem_cons.mp he with h1 | h1
      · exact h1 ▸ hpd
      · exact ih hrest e h1
    · simp only [dequeueList, if_neg hz]
      intro e he
      rcases List.mem_cons.mp he with h1 | h1
      · unfold partitionOk at hpd ⊢
        rw [h1]
        have hm : min w d.unsent ≤ d.unsent := Nat.min_le_right _ _
        dsimp only
        omega
      · exact hrest e h1

theorem ackWalk_partition (l : List Data) (s : Nat)
    (h : ∀ d ∈ l, partitionOk d) :
    ∀ d ∈ (ackWalk l s).1, partitionOk d := by
  induction l generalizing s with
  | nil => simp [ackWalk]
  | cons d rest ih =>
    have hpd := h d (List.mem_cons_self d rest)
    have hrest : ∀ e ∈ rest, partitionOk e := fun e he =>
      h e (List.mem_cons_of_mem _ he)
    by_cases h1 : d.acknowledged = d.data.length
    · rcases hw : ackWalk rest s with ⟨rem, poppedFired⟩
      have IH := ih s hrest
      rw [hw] at IH
      simp only [ackWalk, if_pos h1, hw]
      exact IH
    · by_cases hn : min s d.unacknowledged = 0
      · simp only [ackWalk, if_neg h1, if_pos hn]
        exact h
      · by_cases h2 : d.acknowledged + min s d.unacknowledged = d.data.length
        · rcases hw : ackWalk rest (s - min s d.unacknowledged) with
            ⟨rem, poppedFired⟩
          have IH := ih (s - min s d.unacknowledged) hrest
          rw [hw] at IH
          simp only [ackWalk, if_neg h1, if_neg hn, if_pos h2, hw]
          exact IH
        · simp only [ackWalk, if_neg h1, if_neg hn, if_neg h2]
          intro e he
          rcases List.mem_cons.mp he with h3 | h3
          · unfold partitionOk at hpd ⊢
            rw [h3]
            have hm : min s d.unacknowledged ≤ d.unacknowledged :=
              Nat.min_le_right _ _
            dsimp only
            omega
          · exact hrest e h3

theorem broadcastLoop_state (fn : Nat → Bool × Bool) (fuel i : Nat)
    (q : WriteQueue) :
    (broadcastLoop fn fuel i q).1 = q ∨
    (broadcastLoop fn fuel i q).1 = clear q := by
  induction fuel generalizing i q with
  | zero => exact Or.inl rfl
  | succ fuel ih =>
    simp only [broadcastLoop]
    cases hq : q.queue_[i]? with
    | none => exact Or.inl rfl
    | some d =>
      by_cases hcl : (fn d.cb).2
      · by_cases hcont : (fn d.cb).1
        · simp only [if_pos hcl, if_pos hcont]
          rcases ih (i + 1) (clear q) with h | h
          · exact Or.inr h
          · refine Or.inr ?_
            rw [h]
            rfl
        · simp only [if_pos hcl, if_neg hcont]
          simp
      · by_cases hcont : (fn d.cb).1
        · simp only [if_neg hcl, if_pos hcont]
          exact ih (i + 1) q
        · simp only [if_neg hcl, if_neg hcont]
          simp

theorem step_partition (q : WriteQueue) (op : Op)
    (h : ∀ d ∈ q.queue_, partitionOk d) :
    ∀ d ∈ (step q op).1.queue_, partitionOk d := by
  cases op with
  | enq dat sm c =>
    by_cases ho : q.size_limit_ < q.total_unsent_size_ + dat.length
    · simpa [step, enqueue, ho] using h
    · simp only [step, enqueue, if_neg ho]
      intro e he
      rcases List.mem_append.mp he with h1 | h1
      · exact h e h1
      · have : e = ⟨dat, 0, 0, dat.length, sm, c⟩ := by simpa using h1
        rw [this]
        unfold partitionOk
        simp
  | deq w =>
    intro e he
    exact dequeueList_partition w q.queue_ h e he
  | ackOp s =>
    by_cases ho : total_unacknowledged q.queue_ < s
    · simpa [step, ack, ho] using h
    · simp only [step, ack, if_neg ho]
      intro e he
      exact ackWalk_partition q.queue_ s h e he
  | bcast fn =>
    rcases broadcastLoop_state fn q.queue_.length 0 q with hb | hb
    · simp only [step, broadcast, hb]
      exact h
    · simp only [step, broadcast, hb]
      simp [clear]
  | clearOp =>
    simp [step, clear]

theorem run_partition (q : WriteQueue) (ops : List Op)
    (h : ∀ d ∈ q.queue_, partitionOk d) :
    ∀ d ∈ (run q ops).1.queue_, partitionOk d := by
  induction ops generalizing q with
  | nil => exact h
  | cons op rest ih =>
    simp only [run]
    exact ih (step q op).1 (step_partition q op h)

/-- Claim C1: in every state reachable by a sequence of queue
operations from a fresh queue, the three counters of every queued item
partition its byte length: acknowledged + unacknowledged + unsent
equals the buffer length. -/
theorem claim_C1_counter_partition (limit : Nat) (ops : List Op)
    (d : Data) (hd : d ∈ (run (init limit) ops).1.queue_) :
    d.acknowledged + d.unacknowledged + d.unsent = d.data.length :=
  run_partition (init limit) ops (by simp [init]) d hd

theorem pendingCount_cons (c : Nat) (d : Data) (l : List Data) :
    pendingCount c (d :: l) =
      pendingCount c l + (if d.cb == c && mayFire d then 1 else 0) := by
  simp [pendingCount, List.countP_cons]

theorem mayFire_false_of (d : Data) (hs : d.some = true)
    (ha : 0 < d.acknowledged) : mayFire d = false := by
  simp [mayFire, hs]
  omega

theorem dequeueList_pending (c w : Nat) (l : List Data) :
    pendingCount c (dequeueList w l).2 = pendingCount c l := by
  induction l with
  | nil => simp [dequeueList]
  | cons d rest ih =>
    by_cases hz : d.unsent = 0
    · simp only [dequeueList, if_pos hz]
      rw [pendingCount_cons, pendingCount_cons, ih]
    · simp only [dequeueList, if_neg hz]
      rw [pendingCount_cons, pendingCount_cons]
      rfl

theorem count_fire_pop_le (c : Nat) (d : Data) :
    List.count c
        (if d.some && decide (0 < d.acknowledged) then ([] : List Nat)
          else [d.cb]) ≤
      if (d.cb == c && mayFire d) = true then 1 else 0 := by
  by_cases hf : (d.some && decide (0 < d.acknowledged)) = true
  · simp [hf]
  · rw [if_neg hf]
    have hmf : mayFire d = true := by
      unfold mayFire
      by_cases hb : d.some = true
      · have ha : d.acknowledged = 0 := by
          by_contra hne
          exact hf (by simp [hb, Nat.pos_of_ne_zero hne])
        simp [hb, ha]
      · have hb2 : d.some = false := by simpa using hb
        simp [hb2]
    rw [hmf]
    by_cases hcb : d.cb = c
    · simp [hcb]
    · have h1 : (d.cb == c) = false := by simpa using hcb
      simp [h1, List.count_cons, hcb]

theorem count_fire_kept_le (c : Nat) (d : Data) (n : Nat) (hn : n ≠ 0) :
    List.count c
        (if d.some && decide (d.acknowledged = 0) then [d.cb]
          else ([] : List Nat)) +
      (if ((Data.mk d.data (d.acknowledged + n) (d.unacknowledged - n)
            d.unsent d.some d.cb).cb == c &&
          mayFire (Data.mk d.data (d.acknowledged + n)
            (d.unacknowledged - n) d.unsent d.some d.cb)) = true
        then 1 else 0) ≤
      if (d.cb == c && mayFire d) = true then 1 else 0 := by
  have hcb2 : (Data.mk d.data (d.acknowledged + n) (d.unacknowledged - n)
      d.unsent d.some d.cb).cb = d.cb := rfl
  rw [hcb2]
  by_cases hb : d.some = true
  · have hm2 : mayFire (Data.mk d.data (d.acknowledged + n)
        (d.unacknowledged - n) d.unsent d.some d.cb) = false := by
      unfold mayFire
      dsimp only
      rw [hb]
      simp only [eq_self_iff_true, if_true, decide_eq_false_iff_not]
      omega
    rw [hm2]
    simp only [Bool.and_false]
    rw [if_neg (by simp : ¬(false = true))]
    by_cases ha : d.acknowledged = 0
    · have hmd : mayFire d = true := by
        simp [mayFire, hb, ha]
      rw [hmd]
      have hfire : (d.some && decide (d.acknowledged = 0)) = true := by
        simp [hb, ha]
      rw [if_pos hfire]
      by_cases hcb : d.cb = c
      · simp [hcb]
      · have h1 : (d.cb == c) = false := by simpa using hcb
        simp [h1, List.count_cons, hcb]
    · have hfire : (d.some && decide (d.acknowledged = 0)) = false := by
        simp [hb, ha]
      rw [hfire]
      simp
  · have hb2 : d.some = false := by simpa using hb
    have hm2 : mayFire (Data.mk d.data (d.acknowledged + n)
        (d.unacknowledged - n) d.unsent d.some d.cb) = true := by
      unfold mayFire
      dsimp only
      simp [hb2]
    have hmd : mayFire d = true := by simp [mayFire, hb2]
    rw [hm2, hmd, hb2]
    simp

theorem ackWalk_pending (l : List Data) (s c : Nat) :
    ((ackWalk l s).2.2).count c + pendingCount c (ackWalk l s).1 ≤
      pendingCount c l := by
  induction l generalizing s with
  | nil => simp [ackWalk, pendingCount]
  | cons d rest ih =>
    by_cases h1 : d.acknowledged = d.data.length
    · rcases hw : ackWalk rest s with ⟨rem, poppedFired⟩
      rcases poppedFired with ⟨popped, fired⟩
      have IH := ih s
      rw [hw] at IH
      dsimp only at IH
      simp only [ackWalk, if_pos h1, hw]
      try dsimp only
      rw [pendingCount_cons, List.count_append]
      have hle := count_fire_pop_le c d
      omega
    · by_cases hn : min s d.unacknowledged = 0
      · simp only [ackWalk, if_neg h1, if_pos hn]
        simp
      · by_cases h2 : d.acknowledged + min s d.unacknowledged = d.data.length
        · rcases hw : ackWalk rest (s - min s d.unacknowledged) with
            ⟨rem, poppedFired⟩
          rcases poppedFired with ⟨popped, fired⟩
          have IH := ih (s - min s d.unacknowledged)
          rw [hw] at IH
          dsimp only at IH
          simp only [ackWalk, if_neg h1, if_neg hn, if_pos h2, hw]
          try dsimp only
          rw [pendingCount_cons, List.count_append]
          have hle := count_fire_pop_le c d
          omega
        · simp only [ackWalk, if_neg h1, if_neg hn, if_neg h2]
          try dsimp only
          rw [pendingCount_cons, pendingCount_cons]
          have hle := count_fire_kept_le c d (min s d.unacknowledged) hn
          omega


theorem step_pending (q : WriteQueue) (op : Op) (c : Nat) :
    ((step q op).2).count c + pendingCount c (step q op).1.queue_ ≤
      pendingCount c q.queue_ + enqCount c [op] := by
  cases op with
  | enq dat sm c2 =>
    by_cases ho : q.size_limit_ < q.total_unsent_size_ + dat.length
    · simp only [step, enqueue, if_pos ho]
      simp [enqCount]
    · simp only [step, enqueue, if_neg ho]
      try dsimp only
      simp only [List.count_nil, Nat.zero_add]
      rw [show pendingCount c (q.queue_ ++ [⟨dat, 0, 0, dat.length, sm, c2⟩])
          = pendingCount c q.queue_ +
            pendingCount c [⟨dat, 0, 0, dat.length, sm, c2⟩] from by
        simp [pendingCount, List.countP_append]]
      have : pendingCount c [⟨dat, 0, 0, dat.length, sm, c2⟩] ≤
          enqCount c [Op.enq dat sm c2] := by
        simp [pendingCount, List.countP_cons, enqCount]
        by_cases hcb : c2 = c
        · simp [hcb]
          split <;> omega
        · have : ((⟨dat, 0, 0, dat.length, sm, c2⟩ : Data).cb == c) = false := by
            simpa using hcb
          simp [this, hcb]
      omega
  | deq w =>
    simp only [step]
    try dsimp only
    rw [show (dequeue q w).2.queue_ = (dequeueList w q.queue_).2 from rfl]
    rw [dequeueList_pending]
    simp [enqCount]
  | ackOp s =>
    by_cases ho : total_unacknowledged q.queue_ < s
    · simp only [step, ack, if_pos ho]
      simp [enqCount]
    · simp only [step, ack, if_neg ho]
      try dsimp only
      have := ackWalk_pending q.queue_ s c
      simp only [enqCount]
      omega
  | bcast fn =>
    simp only [step]
    try dsimp only
    rcases broadcastLoop_state fn q.queue_.length 0 q with hb | hb
    · rw [show (broadcast q fn).1 = (broadcastLoop fn q.queue_.length 0 q).1
        from rfl, hb]
      simp [enqCount]
    · rw [show (broadcast q fn).1 = (broadcastLoop fn q.queue_.length 0 q).1
        from rfl, hb]
      simp [enqCount, clear, pendingCount]
  | clearOp =>
    simp [step, clear, pendingCount, enqCount]

theorem enqCount_cons (c : Nat) (op : Op) (ops : List Op) :
    enqCount c (op :: ops) = enqCount c [op] + enqCount c ops := by
  cases op <;> simp [enqCount] <;> split <;> omega

theorem run_pending (q : WriteQueue) (ops : List Op) (c : Nat) :
    ((run q ops).2).count c + pendingCount c (run q ops).1.queue_ ≤
      pendingCount c q.queue_ + enqCount c ops := by
  induction ops generalizing q with
  | nil => simp [run, enqCount]
  | cons op rest ih =>
    simp only [run]
    try dsimp only
    rw [List.count_append]
    have h1 := step_pending q op c
    have h2 := ih (step q op).1
    rw [enqCount_cons]
    omega

/-- Claim C5: over every sequence of queue operations from a fresh
queue, each completion callback identifier fires at most as many times
as items were enqueued with it; in particular an item fires at most
once ever, the partial-flag item at its first partially acknowledged
byte and never again on later acks, the full item only on reaching its
length. -/
theorem claim_C5_callback_at_most_once (limit : Nat) (ops : List Op)
    (c : Nat) :
    ((run (init limit) ops).2).count c ≤ enqCount c ops := by
  have := run_pending (init limit) ops c
  have h0 : pendingCount c (init limit).queue_ = 0 := by
    simp [init, pendingCount]
  omega

theorem broadcastLoop_empty (fn : Nat → Bool × Bool) (fuel i : Nat)
    (q : WriteQueue) (hq : q.queue_ = []) :
    broadcastLoop fn fuel i q = (q, []) := by
  cases fuel with
  | zero => rfl
  | succ fuel =>
    simp only [broadcastLoop, hq]
    rfl

/-- The broadcast loop computes exactly the callback sequence the spec
prescribes (front to back from the index, stopping at the first stop
answer or right after a reentrant clear), and the final state is the
cleared queue exactly when some visited callback triggered a clear. -/
theorem broadcastLoop_spec (fn : Nat → Bool × Bool) (fuel : Nat) :
    ∀ (i : Nat) (q : WriteQueue), q.queue_.length ≤ fuel + i →
    broadcastLoop fn fuel i q =
      (if (broadcastCalls fn ((q.queue_.map Data.cb).drop i)).any
          (fun c => (fn c).2) then clear q else q,
        broadcastCalls fn ((q.queue_.map Data.cb).drop i)) := by
  induction fuel with
  | zero =>
    intro i q hfuel
    have hdrop : (q.queue_.map Data.cb).drop i = [] := by
      apply List.drop_eq_nil_of_le
      simpa using hfuel
    rw [hdrop]
    simp [broadcastLoop, broadcastCalls]
  | succ fuel ih =>
    intro i q hfuel
    by_cases hi : i < q.queue_.length
    · have hget : q.queue_[i]? = some q.queue_[i] :=
        List.getElem?_eq_getElem hi
      have hdrop : (q.queue_.map Data.cb).drop i =
          q.queue_[i].cb :: (q.queue_.map Data.cb).drop (i + 1) := by
        rw [List.drop_eq_getElem_cons (by simpa using hi)]
        congr 1
        rw [List.getElem_map]
      rw [hdrop]
      simp only [broadcastLoop, hget, broadcastCalls]
      by_cases hcont : (fn q.queue_[i].cb).1
      · by_cases hcl : (fn q.queue_[i].cb).2
        · have hrec := broadcastLoop_empty fn fuel (i + 1) (clear q)
            (by simp [clear])
          simp [hcont, hcl, hrec, List.any_cons]
        · have hrec := ih (i + 1) q (by omega)
          simp [hcont, hcl, hrec, List.any_cons]
      · by_cases hcl : (fn q.queue_[i].cb).2
        · simp [hcont, hcl, List.any_cons]
        · simp [hcont, hcl, List.any_cons]
    · have hnone : q.queue_[i]? = none := by
        rw [List.getElem?_eq_none]
        omega
      have hdrop : (q.queue_.map Data.cb).drop i = [] := by
        apply List.drop_eq_nil_of_le
        simp
        omega
      rw [hdrop]
      simp [broadcastLoop, hnone, broadcastCalls]

theorem broadcastCalls_take (fn : Nat → Bool × Bool) (cbs : List Nat) :
    ∃ k, broadcastCalls fn cbs = cbs.take k := by
  induction cbs with
  | nil => exact ⟨0, rfl⟩
  | cons c rest ih =>
    by_cases h : ((fn c).1 && !(fn c).2) = true
    · obtain ⟨k, hk⟩ := ih
      refine ⟨k + 1, ?_⟩
      simp only [broadcastCalls, if_pos h, hk, List.take_succ_cons]
    · refine ⟨1, ?_⟩
      simp only [broadcastCalls, if_neg h]
      rfl

/-- Claim C6: broadcast hands the queued callbacks to fn front to
back, stops the instant fn answers stop, and is safe under a reentrant
clear from inside fn: the invoked sequence is exactly the prescribed
prefix of the callback list (so no callback of a remaining item is
invoked twice or skipped), and the final state is the cleared queue
exactly when a visited step cleared it, the untouched queue
otherwise. -/
theorem claim_C6_broadcast_reentrant_clear (q : WriteQueue)
    (fn : Nat → Bool × Bool) :
    (broadcast q fn).2 = broadcastCalls fn (q.queue_.map Data.cb) ∧
    (∃ k, (broadcast q fn).2 = (q.queue_.map Data.cb).take k) ∧
    (broadcast q fn).1 =
      (if ((broadcast q fn).2).any (fun c => (fn c).2) then clear q
        else q) := by
  have h := broadcastLoop_spec fn q.queue_.length 0 q (by omega)
  rw [List.drop_zero] at h
  have h2 : (broadcast q fn).2 = broadcastCalls fn (q.queue_.map Data.cb) := by
    rw [show broadcast q fn = broadcastLoop fn q.queue_.length 0 q from rfl, h]
  refine ⟨h2, ?_, ?_⟩
  · rw [h2]
    exact broadcastCalls_take fn _
  · rw [h2]
    rw [show broadcast q fn = broadcastLoop fn q.queue_.length 0 q from rfl, h]

theorem map_cb_getElem (l : List Data) (i : Nat) (d : Data)
    (hi : l[i]? = some d) :
    i < l.length ∧ (l.map Data.cb)[i]? = some d.cb := by
  constructor
  · by_contra h
    have h2 : l[i]? = none := List.getElem?_eq_none (by omega)
    rw [h2] at hi
    simp at hi
  · rw [List.getElem?_map, hi]
    rfl

theorem nodup_cb_index_eq (l : List Data) (hnd : (l.map Data.cb).Nodup)
    (i j : Nat) (a b : Data) (hi : l[i]? = some a) (hj : l[j]? = some b)
    (hcb : a.cb = b.cb) : i = j := by
  obtain ⟨hi1, hi2⟩ := map_cb_getElem l i a hi
  obtain ⟨hj1, hj2⟩ := map_cb_getElem l j b hj
  have hi4 : i < (l.map Data.cb).length := by simpa using hi1
  have hj4 : j < (l.map Data.cb).length := by simpa using hj1
  rw [List.getElem?_eq_getElem hi4] at hi2
  rw [List.getElem?_eq_getElem hj4] at hj2
  have hij : (l.map Data.cb)[i] = (l.map Data.cb)[j] := by
    rw [Option.some.injEq] at hi2 hj2
    rw [hi2, hj2, hcb]
  exact (hnd.getElem_inj_iff).mp hij

/-- The callbacks of the remaining items after an acknowledgment walk
are exactly the suffix of callbacks after the retired prefix. -/
theorem ackWalk_rem_cbs (l : List Data) (s : Nat) :
    ((ackWalk l s).1).map Data.cb =
      (l.map Data.cb).drop (ackWalk l s).2.1.length := by
  obtain ⟨_, _, _, hdrop, _⟩ := ackWalk_shape l s
  rcases hdrop with hL | ⟨a, a2, t, hsplit, hrem, hfields⟩
  · rw [hL, List.map_drop]
  · rw [hrem, ← List.map_drop, hsplit]
    simp [hfields.2.1]

/-- Claim C9: with the backlog within the capacity limit, enqueue of a
zero-length buffer succeeds and appends a regular FIFO item with all
counters zero; and a zero-length item fires only once every item ahead
of it has been retired: whenever an ack call fires the callback of a
zero-length item, no earlier item is left in the queue after the
call. -/
theorem claim_C9_zero_length_marker (q : WriteQueue) (sm : Bool) (c : Nat)
    (q2 : WriteQueue) (sz i : Nat) (d : Data)
    (hcap : q.total_unsent_size_ ≤ q.size_limit_)
    (hinv : ∀ e ∈ q2.queue_, partitionOk e)
    (hnd : (q2.queue_.map Data.cb).Nodup)
    (hi : q2.queue_[i]? = some d)
    (hzero : d.data = [])
    (hfired : d.cb ∈ (ack q2 sz).1.2) :
    ((enqueue q [] sm c).1 = true ∧
      (enqueue q [] sm c).2.queue_ = q.queue_ ++ [⟨[], 0, 0, 0, sm, c⟩]) ∧
    (∀ j, j < i → ∀ e, q2.queue_[j]? = some e →
      e.cb ∉ ((ack q2 sz).2.queue_.map Data.cb)) := by
  constructor
  · have hno : ¬q.size_limit_ < q.total_unsent_size_ := by omega
    simp [enqueue, hno]
  · by_cases hrej : total_unacknowledged q2.queue_ < sz
    · simp [ack, hrej] at hfired
    · have hfired2 : d.cb ∈ (ackWalk q2.queue_ sz).2.2 := by
        simpa [ack, hrej] using hfired
      obtain ⟨hcbs, hlen, hackall, hdrop, hfire⟩ := ackWalk_shape q2.queue_ sz
      have hpart : partitionOk d := hinv d (List.getElem?_mem hi)
      have hack0 : d.acknowledged = 0 := by
        unfold partitionOk at hpart
        rw [hzero] at hpart
        simp at hpart
        omega
      have hdlen : d.data.length = 0 := by rw [hzero]; rfl
      have hik : i < (ackWalk q2.queue_ sz).2.1.length := by
        rcases hfire d.cb hfired2 with hpop | ⟨a, t, hdropk, hcbeq, hne⟩
        · rw [hcbs, List.map_take] at hpop
          rcases List.mem_iff_getElem.mp hpop with ⟨j, hj, hjcb⟩
          have hj2 := hj
          rw [List.length_take, List.length_map] at hj2
          have hjk : j < (ackWalk q2.queue_ sz).2.1.length := by omega
          have hjlen : j < q2.queue_.length := by omega
          have hjq : (q2.queue_.map Data.cb)[j]? = some d.cb := by
            have h1 : ((q2.queue_.map Data.cb).take
                (ackWalk q2.queue_ sz).2.1.length)[j]? = some d.cb := by
              rw [List.getElem?_eq_getElem hj, hjcb]
            rw [List.getElem?_take] at h1
            simpa [hjk] using h1
          have hjq2 : q2.queue_[j]? = some q2.queue_[j] :=
            List.getElem?_eq_getElem hjlen
          have hbcb : q2.queue_[j].cb = d.cb := by
            have h2 := (map_cb_getElem q2.queue_ j q2.queue_[j] hjq2).2
            rw [hjq] at h2
            exact (Option.some.inj h2).symm
          have := nodup_cb_index_eq q2.queue_ hnd i j d q2.queue_[j] hi hjq2
            hbcb.symm
          omega
        · exfalso
          have hklen : (ackWalk q2.queue_ sz).2.1.length <
              q2.queue_.length := by
            have := congrArg List.length hdropk
            simp at this
            omega
          have haq : q2.queue_[(ackWalk q2.queue_ sz).2.1.length]? =
              some a := by
            have h0 := List.getElem?_drop q2.queue_
              (ackWalk q2.queue_ sz).2.1.length 0
            rw [hdropk] at h0
            simpa using h0.symm
          have heq := nodup_cb_index_eq q2.queue_ hnd i
            (ackWalk q2.queue_ sz).2.1.length d a hi haq hcbeq
          have hda : d = a := by
            rw [heq] at hi
            rw [haq] at hi
            exact (Option.some.inj hi).symm
          rw [← hda] at hne
          omega
      intro j hj e hje
      have hjq : e.cb ∈ (q2.queue_.map Data.cb).take
          (ackWalk q2.queue_ sz).2.1.length := by
        obtain ⟨hj1, hj2⟩ := map_cb_getElem q2.queue_ j e hje
        have : ((q2.queue_.map Data.cb).take
            (ackWalk q2.queue_ sz).2.1.length)[j]? = some e.cb := by
          rw [List.getElem?_take]
          simp only [if_pos (by omega : j < (ackWalk q2.queue_ sz).2.1.length)]
          exact hj2
        exact List.getElem?_mem this
      have hdisj : List.Disjoint
          ((q2.queue_.map Data.cb).take (ackWalk q2.queue_ sz).2.1.length)
          ((q2.queue_.map Data.cb).drop (ackWalk q2.queue_ sz).2.1.length) := by
        apply List.disjoint_of_nodup_append
        rw [List.take_append_drop]
        exact hnd
      have hrem : ((ack q2 sz).2.queue_).map Data.cb =
          (q2.queue_.map Data.cb).drop (ackWalk q2.queue_ sz).2.1.length := by
        have : (ack q2 sz).2.queue_ = (ackWalk q2.queue_ sz).1 := by
          simp [ack, hrej]
        rw [this, ackWalk_rem_cbs]
      rw [hrem]
      exact fun hmem => hdisj hjq hmem

theorem queueInv_drop (l : List Data) (k : Nat) (h : queueInv l) :
    queueInv (l.drop k) :=
  ⟨fun d hd => h.1 d (List.mem_of_mem_drop hd),
    h.2.sublist (List.drop_sublist k l)⟩

theorem dequeueList_inv (w : Nat) (l : List Data) (h : queueInv l) :
    queueInv (dequeueList w l).2 := by
  induction l with
  | nil => simpa [dequeueList] using h
  | cons d rest ih =>
    obtain ⟨hpd, hinvr, hord⟩ := queueInv_cons h
    by_cases hz : d.unsent = 0
    · simp only [dequeueList, if_pos hz]
      obtain ⟨hp2, hpw2⟩ := ih hinvr
      refine ⟨?_, ?_⟩
      · intro e he
        rcases List.mem_cons.mp he with h1 | h1
        · exact h1 ▸ hpd
        · exact hp2 e h1
      · rw [List.pairwise_cons]
        exact ⟨fun b hb hpos => hz, hpw2⟩
    · simp only [dequeueList, if_neg hz]
      refine ⟨?_, ?_⟩
      · intro e he
        rcases List.mem_cons.mp he with h1 | h1
        · unfold partitionOk at hpd ⊢
          rw [h1]
          have hm : min w d.unsent ≤ d.unsent := Nat.min_le_right _ _
          dsimp only
          omega
        · exact hinvr.1 e h1
      · rw [List.pairwise_cons]
        refine ⟨?_, hinvr.2⟩
        intro b hb hpos
        have := hord b hb hpos
        omega

theorem ackWalk_inv (l : List Data) (s : Nat) (h : queueInv l) :
    queueInv (ackWalk l s).1 := by
  obtain ⟨_, _, _, hdrop, _⟩ := ackWalk_shape l s
  rcases hdrop with hL | ⟨a, a2, t, hsplit, hrem, hf⟩
  · rw [hL]
    exact queueInv_drop l _ h
  · have hd2 := queueInv_drop l (ackWalk l s).2.1.length h
    rw [hsplit] at hd2
    obtain ⟨hpd, hinvr, hord⟩ := queueInv_cons hd2
    rw [hrem]
    obtain ⟨hdat, hcb, hsm, hun, hsum, hlt, hne⟩ := hf
    refine ⟨?_, ?_⟩
    · intro e he
      rcases List.mem_cons.mp he with h1 | h1
      · unfold partitionOk at hpd ⊢
        rw [h1, hdat, hun]
        omega
      · exact hinvr.1 e h1
    · rw [List.pairwise_cons]
      refine ⟨?_, hinvr.2⟩
      intro b hb hpos
      rw [hun]
      exact hord b hb hpos

theorem step_inv (q : WriteQueue) (op : Op) (h : queueInv q.queue_) :
    queueInv (step q op).1.queue_ := by
  cases op with
  | enq dat sm c =>
    by_cases ho : q.size_limit_ < q.total_unsent_size_ + dat.length
    · simpa [step, enqueue, ho] using h
    · simp only [step, enqueue, if_neg ho]
      try dsimp only
      refine ⟨?_, ?_⟩
      · intro e he
        rcases List.mem_append.mp he with h1 | h1
        · exact h.1 e h1
        · have : e = ⟨dat, 0, 0, dat.length, sm, c⟩ := by simpa using h1
          rw [this]
          unfold partitionOk
          simp
      · rw [List.pairwise_append]
        refine ⟨h.2, by simp, ?_⟩
        intro a ha b hb
        have : b = ⟨dat, 0, 0, dat.length, sm, c⟩ := by simpa using hb
        rw [this]
        intro hpos
        simp at hpos
  | deq w =>
    exact dequeueList_inv w q.queue_ h
  | ackOp s =>
    by_cases ho : total_unacknowledged q.queue_ < s
    · simpa [step, ack, ho] using h
    · simp only [step, ack, if_neg ho]
      exact ackWalk_inv q.queue_ s h
  | bcast fn =>
    rcases broadcastLoop_state fn q.queue_.length 0 q with hb | hb
    · simp only [step, broadcast, hb]
      exact h
    · simp only [step, broadcast, hb]
      simp [clear, queueInv]
  | clearOp =>
    simp [step, clear, queueInv]

/-- Every state reachable by a sequence of operations from a fresh
queue satisfies the structural invariant: counters partition every
item and dequeue order is front to back.  This discharges the
invariant hypotheses of the dequeue and ack theorems for every
reachable state. -/
theorem run_preserves_queueInv (limit : Nat) (ops : List Op) :
    queueInv (run (init limit) ops).1.queue_ := by
  have hgen : ∀ (l : List Op) (q : WriteQueue), queueInv q.queue_ →
      queueInv (run q l).1.queue_ := by
    intro l
    induction l with
    | nil => exact fun q h => h
    | cons op rest ih =>
      intro q h
      simp only [run]
      exact ih (step q op).1 (step_inv q op h)
  exact hgen ops (init limit) (by simp [init, queueInv])

/-- Witness for claim C1 at a concrete trace: one enqueued item, its
counters partition its length. -/
theorem claim_C1_counter_partition_witness :
    (⟨[1, 2], 0, 0, 2, false, 0⟩ : Data) ∈
      (run (init 10) [Op.enq [1, 2] false 0]).1.queue_ ∧
    (⟨[1, 2], 0, 0, 2, false, 0⟩ : Data).acknowledged +
      (⟨[1, 2], 0, 0, 2, false, 0⟩ : Data).unacknowledged +
      (⟨[1, 2], 0, 0, 2, false, 0⟩ : Data).unsent =
      (⟨[1, 2], 0, 0, 2, false, 0⟩ : Data).data.length :=
  ⟨by decide,
    claim_C1_counter_partition 10 [Op.enq [1, 2] false 0] _ (by decide)⟩

/-- Witness for claim C3 at a concrete queue holding one item of three
unsent bytes, dequeued with window two. -/
theorem claim_C3_dequeue_min_window_witness :
    (∀ d ∈ (⟨10, 3, [⟨[5, 6, 7], 0, 0, 3, true, 1⟩]⟩ :
        WriteQueue).queue_, partitionOk d) ∧
    (match activeItem ⟨10, 3, [⟨[5, 6, 7], 0, 0, 3, true, 1⟩]⟩ with
      | none =>
        dequeue ⟨10, 3, [⟨[5, 6, 7], 0, 0, 3, true, 1⟩]⟩ 2 =
          (([], false, 2), ⟨10, 3, [⟨[5, 6, 7], 0, 0, 3, true, 1⟩]⟩)
      | some d =>
        (dequeue ⟨10, 3, [⟨[5, 6, 7], 0, 0, 3, true, 1⟩]⟩ 2).1.1 =
          (d.data.drop (d.data.length - d.unsent)).take (min 2 d.unsent) ∧
        (dequeue ⟨10, 3, [⟨[5, 6, 7], 0, 0, 3, true, 1⟩]⟩ 2).1.1.length =
          min 2 d.unsent ∧
        (dequeue ⟨10, 3, [⟨[5, 6, 7], 0, 0, 3, true, 1⟩]⟩ 2).1.2.1 =
          d.some ∧
        (dequeue ⟨10, 3, [⟨[5, 6, 7], 0, 0, 3, true, 1⟩]⟩ 2).1.2.2 =
          2 - min 2 d.unsent ∧
        (∃ l₁ l₂,
          (⟨10, 3, [⟨[5, 6, 7], 0, 0, 3, true, 1⟩]⟩ :
            WriteQueue).queue_ = l₁ ++ d :: l₂ ∧
          (∀ e ∈ l₁, e.unsent = 0) ∧
          0 < d.unsent ∧
          (dequeue ⟨10, 3, [⟨[5, 6, 7], 0, 0, 3, true, 1⟩]⟩ 2).2.queue_ =
            l₁ ++ ⟨d.data, d.acknowledged,
              d.unacknowledged + min 2 d.unsent,
              d.unsent - min 2 d.unsent, d.some, d.cb⟩ :: l₂) ∧
        (dequeue ⟨10, 3, [⟨[5, 6, 7], 0, 0, 3, true, 1⟩]⟩
            2).2.total_unsent_size_ =
          (⟨10, 3, [⟨[5, 6, 7], 0, 0, 3, true, 1⟩]⟩ :
            WriteQueue).total_unsent_size_ - min 2 d.unsent ∧
        (dequeue ⟨10, 3, [⟨[5, 6, 7], 0, 0, 3, true, 1⟩]⟩
            2).2.size_limit_ =
          (⟨10, 3, [⟨[5, 6, 7], 0, 0, 3, true, 1⟩]⟩ :
            WriteQueue).size_limit_) :=
  ⟨by decide,
    claim_C3_dequeue_min_window ⟨10, 3, [⟨[5, 6, 7], 0, 0, 3, true, 1⟩]⟩ 2
      (by decide)⟩

/-- Witness for claim C4 at a concrete queue with one outstanding
unacknowledged byte, acknowledged with size one. -/
theorem claim_C4_ack_rejection_witness :
    queueInv (⟨10, 0, [⟨[1, 2], 1, 1, 0, false, 3⟩]⟩ :
      WriteQueue).queue_ ∧
    (if total_unacknowledged (⟨10, 0, [⟨[1, 2], 1, 1, 0, false, 3⟩]⟩ :
        WriteQueue).queue_ < 1 then
      ack ⟨10, 0, [⟨[1, 2], 1, 1, 0, false, 3⟩]⟩ 1 =
        ((false, []), ⟨10, 0, [⟨[1, 2], 1, 1, 0, false, 3⟩]⟩)
    else
      (ack ⟨10, 0, [⟨[1, 2], 1, 1, 0, false, 3⟩]⟩ 1).1.1 = true ∧
      total_unacknowledged
          (ack ⟨10, 0, [⟨[1, 2], 1, 1, 0, false, 3⟩]⟩ 1).2.queue_ =
        total_unacknowledged (⟨10, 0, [⟨[1, 2], 1, 1, 0, false, 3⟩]⟩ :
          WriteQueue).queue_ - 1 ∧
      total_acknowledged
          (ack ⟨10, 0, [⟨[1, 2], 1, 1, 0, false, 3⟩]⟩ 1).2.queue_ +
        total_acknowledged
          (ackWalk (⟨10, 0, [⟨[1, 2], 1, 1, 0, false, 3⟩]⟩ :
            WriteQueue).queue_ 1).2.1 =
        total_acknowledged (⟨10, 0, [⟨[1, 2], 1, 1, 0, false, 3⟩]⟩ :
          WriteQueue).queue_ + 1 ∧
      (ack ⟨10, 0, [⟨[1, 2], 1, 1, 0, false, 3⟩]⟩
          1).2.total_unsent_size_ =
        (⟨10, 0, [⟨[1, 2], 1, 1, 0, false, 3⟩]⟩ :
          WriteQueue).total_unsent_size_ ∧
      (ack ⟨10, 0, [⟨[1, 2], 1, 1, 0, false, 3⟩]⟩ 1).2.size_limit_ =
        (⟨10, 0, [⟨[1, 2], 1, 1, 0, false, 3⟩]⟩ :
          WriteQueue).size_limit_) :=
  ⟨by decide,
    claim_C4_ack_rejection ⟨10, 0, [⟨[1, 2], 1, 1, 0, false, 3⟩]⟩ 1
      (by decide)⟩

/-- Witness for claim C9: a queue holding one unacknowledged byte and
a zero-length marker behind it; acknowledging the byte retires the
first item and fires the marker with nothing left ahead of it. -/
theorem claim_C9_zero_length_marker_witness :
    ((init 10).total_unsent_size_ ≤ (init 10).size_limit_) ∧
    (∀ e ∈ (⟨10, 0, [⟨[7], 0, 1, 0, false, 1⟩, ⟨[], 0, 0, 0, false, 2⟩]⟩ :
        WriteQueue).queue_, partitionOk e) ∧
    ((⟨10, 0, [⟨[7], 0, 1, 0, false, 1⟩, ⟨[], 0, 0, 0, false, 2⟩]⟩ :
        WriteQueue).queue_.map Data.cb).Nodup ∧
    (⟨10, 0, [⟨[7], 0, 1, 0, false, 1⟩, ⟨[], 0, 0, 0, false, 2⟩]⟩ :
        WriteQueue).queue_[1]? = some ⟨[], 0, 0, 0, false, 2⟩ ∧
    (⟨[], 0, 0, 0, false, 2⟩ : Data).data = [] ∧
    (⟨[], 0, 0, 0, false, 2⟩ : Data).cb ∈
      (ack ⟨10, 0, [⟨[7], 0, 1, 0, false, 1⟩, ⟨[], 0, 0, 0, false, 2⟩]⟩
        1).1.2 ∧
    (((enqueue (init 10) [] false 9).1 = true ∧
      (enqueue (init 10) [] false 9).2.queue_ =
        (init 10).queue_ ++ [⟨[], 0, 0, 0, false, 9⟩]) ∧
    (∀ j, j < 1 → ∀ e,
      (⟨10, 0, [⟨[7], 0, 1, 0, false, 1⟩, ⟨[], 0, 0, 0, false, 2⟩]⟩ :
        WriteQueue).queue_[j]? = some e →
      e.cb ∉
        ((ack ⟨10, 0, [⟨[7], 0, 1, 0, false, 1⟩,
          ⟨[], 0, 0, 0, false, 2⟩]⟩ 1).2.queue_.map Data.cb))) :=
  ⟨by decide, by decide, by decide, by decide, by decide, by decide,
    claim_C9_zero_length_marker (init 10) false 9
      ⟨10, 0, [⟨[7], 0, 1, 0, false, 1⟩, ⟨[], 0, 0, 0, false, 2⟩]⟩ 1 1
      ⟨[], 0, 0, 0, false, 2⟩ (by decide) (by decide) (by decide)
      (by decide) (by decide) (by decide)⟩

end WriteQueue

end Libp2p
